import Mathlib

/-!
# Verification of the emate KPM core

Shallow embedding of the Kernel Polynomial Method pipeline of the `emate`
repository (`emate/hermitian/kpm.py` and `emate/hermitian/cupyops/kpm.py`),
together with proofs relating the embedded code to its specification.

Machine floating-point arithmetic is embedded as exact real/complex
arithmetic; matrices are `Matrix (Fin n) (Fin n) ℂ`, probe vectors are
`Fin n → ℂ`.  The stochastic probe of `get_moments` (drawn inside the
Python function) is lifted to an explicit parameter, and the moment buffer
`mu` (a length-`num_moments` array in the source, written only at indices
`< num_moments`) is embedded as a total function `ℕ → ℂ` that is zero
outside the written range.
-/

open scoped Matrix

noncomputable section

namespace Emate

/-- Square complex matrices, the embedding of the (rescaled) Hermitian input. -/
abbrev Mat (n : ℕ) := Matrix (Fin n) (Fin n) ℂ

/-- Loop state of `get_moments` (`emate/hermitian/cupyops/kpm.py`, lines 48-62):
the two Chebyshev iterate vectors `alpha0`, `alpha1` and the moment buffer `mu`. -/
structure KPMState (n : ℕ) where
  a0 : Fin n → ℂ
  a1 : Fin n → ℂ
  mu : ℕ → ℂ

/-- One iteration of the doubling loop of `get_moments` with loop counter
`i = i_moment`:
`alpha2 = 2*H.dot(alpha1) - alpha0`;
`mu[2i] = 2*(alpha1†·alpha1) - mu[0]`;
`mu[2i+1] = 2*(alpha2†·alpha1) - mu[1]`;
then the shift `alpha0 ← alpha1`, `alpha1 ← alpha2`. -/
def stepMoment (H : Mat n) (i : ℕ) (s : KPMState n) : KPMState n :=
  let alpha2 := (2 : ℂ) • (H *ᵥ s.a1) - s.a0
  let muA := Function.update s.mu (2 * i) (2 * (star s.a1 ⬝ᵥ s.a1) - s.mu 0)
  let muB := Function.update muA (2 * i + 1) (2 * (star alpha2 ⬝ᵥ s.a1) - muA 1)
  ⟨s.a1, alpha2, muB⟩

/-- Initial state of `get_moments` before the loop:
`alpha1 = H.dot(alpha0)`, `mu = zeros`, `mu[0] = alpha0†·alpha0`,
`mu[1] = alpha0†·alpha1`. -/
def initMoments (H : Mat n) (alpha0 : Fin n → ℂ) : KPMState n :=
  let alpha1 := H *ᵥ alpha0
  ⟨alpha0, alpha1,
    Function.update (Function.update (fun _ => 0) 0 (star alpha0 ⬝ᵥ alpha0)) 1
      (star alpha0 ⬝ᵥ alpha1)⟩

/-- State after the first `j` iterations of the loop
`for i_moment in range(1, num_moments//2)`: iteration number `j` runs with
loop counter `i_moment = j`. -/
def loopIter (H : Mat n) (alpha0 : Fin n → ℂ) : ℕ → KPMState n
  | 0 => initMoments H alpha0
  | j + 1 => stepMoment H (j + 1) (loopIter H alpha0 j)

/-- Embedding of `get_moments` (`emate/hermitian/cupyops/kpm.py`, lines 27-62).
The random probe `alpha0 = exp(1j*2*pi*rand(dimension))` is lifted to the
explicit parameter `alpha0`; the loop `range(1, num_moments//2)` performs
`num_moments//2 - 1` iterations. -/
def get_moments (H : Mat n) (num_moments : ℕ) (alpha0 : Fin n → ℂ) : ℕ → ℂ :=
  (loopIter H alpha0 (num_moments / 2 - 1)).mu

/-- Chebyshev polynomial of the first kind evaluated at the matrix `H`:
`T 0 = I`, `T 1 = H`, `T (k+2) = 2·H·T (k+1) − T k`. -/
def chebMatrix (H : Mat n) : ℕ → Mat n
  | 0 => 1
  | 1 => H
  | k + 2 => (2 : ℂ) • (H * chebMatrix H (k + 1)) - chebMatrix H k

/-- Direct Chebyshev moment `conj(x)·T_k(H)·x`. -/
def directMoment (H : Mat n) (x : Fin n → ℂ) (k : ℕ) : ℂ :=
  star x ⬝ᵥ (chebMatrix H k *ᵥ x)

/-- Modelled from the spec: `dctIII` is imported from `emate.utils.cupyops.signal`,
whose source is not included in the repository snapshot; per the spec it is the
type-III discrete cosine transform of the first `N` entries, in the standard
(scipy) convention `y j = x 0 + 2·∑_(k=1)^(N-1) x k · cos (π k (2j+1) / (2N))`. -/
def dctIII (N : ℕ) (x : ℕ → ℝ) (j : ℕ) : ℝ :=
  x 0 + 2 * ∑ k ∈ Finset.Ioo 0 N, x k * Real.cos (Real.pi * k * (2 * j + 1) / (2 * N))

/-- Abscissa formula of `apply_kernel`: `ek[j] = cos(pi*(j+0.5)/num_points)`. -/
def ekPoint (num_points : ℕ) (j : ℕ) : ℝ :=
  Real.cos (Real.pi * ((j : ℝ) + 0.5) / num_points)

/-- Weight formula of `apply_kernel`: `gk[j] = pi*sqrt(1 - ek[j]^2)`. -/
def gkWeight (num_points : ℕ) (j : ℕ) : ℝ :=
  Real.pi * Real.sqrt (1 - ekPoint num_points j ^ 2)

/-- Embedding of `apply_kernel` (`emate/hermitian/cupyops/kpm.py`, lines 65-97).
`moments` is the `num_vecs × num_moments` batch of per-probe moments; arrays are
embedded as functions, with only indices `< num_moments` (resp. `< num_points`)
meaningful. Steps, in source order: sum of real parts over axis 0, division by
`num_vecs` then `dimension`, optional elementwise kernel, zero-padding to
`num_points = extra_points + num_moments`, `dctIII`, abscissas `ek`, weights
`gk`, and the pointwise quotient `rho`. -/
def apply_kernel {num_vecs : ℕ} (moments : Fin num_vecs → ℕ → ℂ)
    (kernel : Option (ℕ → ℝ)) (dimension num_moments extra_points : ℕ) :
    (ℕ → ℝ) × (ℕ → ℝ) :=
  let summed : ℕ → ℝ := fun k => ∑ v, (moments v k).re
  let averaged : ℕ → ℝ := fun k => summed k / (num_vecs : ℝ) / (dimension : ℝ)
  let num_points := extra_points + num_moments
  let damped : ℕ → ℝ :=
    match kernel with
    | some g => fun k => averaged k * g k
    | none => averaged
  let mu_ext : ℕ → ℝ := fun k => if k < num_moments then damped k else 0
  let smooth_moments := dctIII num_points mu_ext
  let ek := ekPoint num_points
  let gk := gkWeight num_points
  (ek, fun j => smooth_moments j / gk j)

/-- Reconstruction contract transcribed from the spec's own words (steps 1-6 of
§4.2 and the claim): average, damp, zero-pad to `num_moments + extra_points`,
DCT-III, abscissas `cos(π(j+0.5)/num_points)`, density
`smooth[j] / (π·sqrt(1 − ek[j]²))`. Used only to compare with `apply_kernel`. -/
def apply_kernel_claim {num_vecs : ℕ} (moments : Fin num_vecs → ℕ → ℂ)
    (kernel : Option (ℕ → ℝ)) (dimension num_moments extra_points : ℕ) :
    (ℕ → ℝ) × (ℕ → ℝ) :=
  let num_points := num_moments + extra_points
  let averaged : ℕ → ℝ := fun k =>
    (∑ v, (moments v k).re) / (num_vecs : ℝ) / (dimension : ℝ)
  let damped : ℕ → ℝ :=
    match kernel with
    | some g => fun k => averaged k * g k
    | none => averaged
  let padded : ℕ → ℝ := fun k => if k < num_moments then damped k else 0
  let smooth := dctIII num_points padded
  (fun j => Real.cos (Real.pi * ((j : ℝ) + 0.5) / num_points),
   fun j => smooth j / (Real.pi * Real.sqrt (1 - Real.cos (Real.pi * ((j : ℝ) + 0.5) / num_points) ^ 2)))

/-- Embedding of `rescale_kpm` (`emate/hermitian/kpm.py`, lines 49-53):
`ek = ek*scale_fact_a + scale_fact_b`, `rho = rho/scale_fact_a`. -/
def rescale_kpm {ι : Type*} (ek rho : ι → ℝ) (scale_fact_a scale_fact_b : ℝ) :
    (ι → ℝ) × (ι → ℝ) :=
  (fun i => ek i * scale_fact_a + scale_fact_b, fun i => rho i / scale_fact_a)

/-- Modelled from the spec: the forward affine rescale of abscissas implied by
`H' = (H - scale_b·I)/scale_a` (the rescaling itself lives in
`emate.linalg.misc`, not included in the sources): `ek ↦ (ek - scale_b)/scale_a`. -/
def rescale_abscissas {ι : Type*} (ek : ι → ℝ) (scale_a scale_b : ℝ) : ι → ℝ :=
  fun i => (ek i - scale_b) / scale_a

/-- Modelled from the spec: `rescale_matrix` (from `emate.linalg.misc`, whose
source is not included) with contract `scale_a = (lmax - lmin)/(2 - epsilon)`,
`scale_b = (lmax + lmin)/2`, `H' = (H - scale_b·I)/scale_a`. -/
def rescale_matrix (H : Mat n) (lmin lmax epsilon : ℝ) : Mat n × ℝ × ℝ :=
  let scale_a := (lmax - lmin) / (2 - epsilon)
  let scale_b := (lmax + lmin) / 2
  (((scale_a : ℂ))⁻¹ • (H - (scale_b : ℂ) • 1), scale_a, scale_b)

/-- Modelled from the spec: `rescale_cupy` (from `emate.linalg.misc`, whose
source is not included) realizes the same affine rescaling contract as
`rescale_matrix`. -/
def rescale_cupy (H : Mat n) (lmin lmax epsilon : ℝ) : Mat n × ℝ × ℝ :=
  rescale_matrix H lmin lmax epsilon

/-- The common KPM pipeline driven by both orchestrators, with the abscissas
first and the density second: resolve bounds (`get_bounds` is the external
collaborator `boundsOf`), rescale, per-probe moments, Jackson-style kernel from
the external generator `kernelGen num_moments 32`, reconstruction, and the
rescaling inverse. The probe batch and the two external collaborators are
explicit parameters. -/
def kpm_pipeline (H : Mat n) (num_moments num_vecs extra_points : ℕ)
    (lmin lmax : Option ℝ) (epsilon : ℝ) (boundsOf : Mat n → ℝ × ℝ)
    (probes : Fin num_vecs → Fin n → ℂ) (kernelGen : ℕ → ℕ → ℕ → ℝ) :
    (ℕ → ℝ) × (ℕ → ℝ) :=
  let bounds : ℝ × ℝ :=
    match lmin, lmax with
    | some lo, some hi => (lo, hi)
    | _, _ => boundsOf H
  let r := rescale_matrix H bounds.1 bounds.2 epsilon
  let moments : Fin num_vecs → ℕ → ℂ := fun v => get_moments r.1 num_moments (probes v)
  let kernel0 := kernelGen num_moments 32
  let p := apply_kernel moments (some kernel0) n num_moments extra_points
  rescale_kpm p.1 p.2 r.2.1 r.2.2

/-- Embedding of `pykpm` (`emate/hermitian/kpm.py`, lines 55-179). The
tensorflow backend pieces (`emate.hermitian.tfops.kpm.get_moments` /
`apply_kernel`, `normal_complex`, `tf_jackson`) are not included in the
sources; per the spec (§2, §9) they duplicate the cupy backend algorithm, so
they are modelled by the embedded `get_moments` / `apply_kernel` with the probe
batch and kernel generator as explicit parameters. `pykpm` calls
`rescale_matrix(H, lmin, lmax)` without its own `epsilon` argument, so the
rescaler's default `misc_default_epsilon` is an explicit parameter; `precision`
only selects floating-point dtypes, which the exact-arithmetic embedding does
not distinguish. The final pair is returned as `(ek, rho)`. -/
def pykpm (H : Mat n) (num_moments num_vecs extra_points precision : ℕ)
    (lmin lmax : Option ℝ) (epsilon : ℝ) (boundsOf : Mat n → ℝ × ℝ)
    (misc_default_epsilon : ℝ) (probes : Fin num_vecs → Fin n → ℂ)
    (kernelGen : ℕ → ℕ → ℕ → ℝ) : (ℕ → ℝ) × (ℕ → ℝ) :=
  kpm_pipeline H num_moments num_vecs extra_points lmin lmax misc_default_epsilon
    boundsOf probes kernelGen

/-- Embedding of `cupykpm` (`emate/hermitian/kpm.py`, lines 181-224): resolve
bounds, rescale via `rescale_cupy(H, lmin, lmax, epsilon)` (here `epsilon` IS
passed through), per-probe `cupyops.get_moments`, kernel
`cupy_jackson(num_moments, precision=32)` (external generator `kernelGen`,
always requested at precision `32`), `cupyops.apply_kernel`, `rescale_kpm`, and
finally `return rho, ek` — the density first and the abscissas second, as in
the source. `precision` only selects dtypes (the matrix data is always cast to
`complex64`), which the exact-arithmetic embedding does not distinguish. -/
def cupykpm (H : Mat n) (num_moments num_vecs extra_points precision : ℕ)
    (lmin lmax : Option ℝ) (epsilon : ℝ) (boundsOf : Mat n → ℝ × ℝ)
    (probes : Fin num_vecs → Fin n → ℂ) (kernelGen : ℕ → ℕ → ℕ → ℝ) :
    (ℕ → ℝ) × (ℕ → ℝ) :=
  let bounds : ℝ × ℝ :=
    match lmin, lmax with
    | some lo, some hi => (lo, hi)
    | _, _ => boundsOf H
  let r := rescale_cupy H bounds.1 bounds.2 epsilon
  let moments : Fin num_vecs → ℕ → ℂ := fun v => get_moments r.1 num_moments (probes v)
  let kernel0 := kernelGen num_moments 32
  let p := apply_kernel moments (some kernel0) n num_moments extra_points
  let q := rescale_kpm p.1 p.2 r.2.1 r.2.2
  (q.2, q.1)

/-! ## Chebyshev-matrix algebra -/

lemma two_smul_mat {n : ℕ} (M : Mat n) : (2 : ℂ) • M = 2 * M := by
  rw [two_smul, two_mul]

lemma chebMatrix_zero {n : ℕ} (H : Mat n) : chebMatrix H 0 = 1 := rfl

lemma chebMatrix_one {n : ℕ} (H : Mat n) : chebMatrix H 1 = H := rfl

lemma chebMatrix_add_two {n : ℕ} (H : Mat n) (k : ℕ) :
    chebMatrix H (k + 2) = (2 : ℂ) • (H * chebMatrix H (k + 1)) - chebMatrix H k := rfl

/-- The matrix Chebyshev recursion agrees with evaluating Mathlib's Chebyshev
polynomial of the first kind at `H`. -/
lemma chebMatrix_eq_aeval {n : ℕ} (H : Mat n) :
    ∀ k : ℕ, chebMatrix H k = Polynomial.aeval H (Polynomial.Chebyshev.T ℂ k) ∧
      chebMatrix H (k + 1) = Polynomial.aeval H (Polynomial.Chebyshev.T ℂ (k + 1)) := by
  intro k
  induction k with
  | zero =>
    constructor
    · simp [chebMatrix_zero]
    · simp [chebMatrix_one]
  | succ k ih =>
    refine ⟨ih.2, ?_⟩
    have harg : (((k + 1 : ℕ) : ℤ) + 1) = (k : ℤ) + 2 := by push_cast; ring
    rw [chebMatrix_add_two, ih.1, ih.2, harg, Polynomial.Chebyshev.T_add_two,
      map_sub, map_mul, map_mul, map_ofNat, Polynomial.aeval_X,
      two_smul_mat, mul_assoc]

/-- `H` commutes with every `chebMatrix H k`. -/
lemma chebMatrix_commute {n : ℕ} (H : Mat n) :
    ∀ k : ℕ, H * chebMatrix H k = chebMatrix H k * H ∧
      H * chebMatrix H (k + 1) = chebMatrix H (k + 1) * H := by
  intro k
  induction k with
  | zero => exact ⟨by rw [chebMatrix_zero, one_mul, mul_one], by rw [chebMatrix_one]⟩
  | succ k ih =>
    refine ⟨ih.2, ?_⟩
    rw [chebMatrix_add_two, mul_sub, sub_mul, mul_smul_comm, smul_mul_assoc,
      ih.1, ih.2, ← mul_assoc, ih.2]

/-- For Hermitian `H`, every `chebMatrix H k` is Hermitian. -/
lemma chebMatrix_conjTranspose {n : ℕ} (H : Mat n) (hH : Hᴴ = H) :
    ∀ k : ℕ, (chebMatrix H k)ᴴ = chebMatrix H k := by
  have main : ∀ k : ℕ, (chebMatrix H k)ᴴ = chebMatrix H k ∧
      (chebMatrix H (k + 1))ᴴ = chebMatrix H (k + 1) := by
    intro k
    induction k with
    | zero =>
      exact ⟨by rw [chebMatrix_zero, Matrix.conjTranspose_one],
        by rw [chebMatrix_one]; exact hH⟩
    | succ k ih =>
      refine ⟨ih.2, ?_⟩
      rw [chebMatrix_add_two, Matrix.conjTranspose_sub, Matrix.conjTranspose_smul,
        Matrix.conjTranspose_mul, ih.1, ih.2, hH]
      rw [show star (2 : ℂ) = (2 : ℂ) from by simp]
      rw [(chebMatrix_commute H (k + 1)).1]
  exact fun k => (main k).1

/-- Matrix form of the Chebyshev product identity
`2·T_a·T_b = T_(a+b) + T_(a−b)` for `b ≤ a`. -/
lemma chebMatrix_mul_identity {n : ℕ} (H : Mat n) {a b : ℕ} (hba : b ≤ a) :
    (2 : ℂ) • (chebMatrix H a * chebMatrix H b) =
      chebMatrix H (a + b) + chebMatrix H (a - b) := by
  have ha := (chebMatrix_eq_aeval H a).1
  have hb := (chebMatrix_eq_aeval H b).1
  have hab := (chebMatrix_eq_aeval H (a + b)).1
  have hsub := (chebMatrix_eq_aeval H (a - b)).1
  rw [ha, hb, hab, hsub, two_smul_mat]
  have hmul := Polynomial.Chebyshev.mul_T ℂ (a : ℤ) (b : ℤ)
  have hcast1 : ((a : ℤ) + (b : ℤ)) = (((a + b : ℕ) : ℤ)) := by push_cast; ring
  have hcast2 : ((a : ℤ) - (b : ℤ)) = (((a - b : ℕ) : ℤ)) := by
    rw [Nat.cast_sub hba]
  rw [hcast1, hcast2] at hmul
  calc 2 * (Polynomial.aeval H (Polynomial.Chebyshev.T ℂ (a : ℤ)) *
        Polynomial.aeval H (Polynomial.Chebyshev.T ℂ (b : ℤ)))
      = Polynomial.aeval H (2 * Polynomial.Chebyshev.T ℂ (a : ℤ) *
          Polynomial.Chebyshev.T ℂ (b : ℤ)) := by
        rw [map_mul, map_mul, map_ofNat, mul_assoc]
    _ = Polynomial.aeval H (Polynomial.Chebyshev.T ℂ (((a + b : ℕ) : ℤ)) +
          Polynomial.Chebyshev.T ℂ (((a - b : ℕ) : ℤ))) := by rw [hmul]
    _ = _ := by rw [map_add]

/-! ## Inner-product identities for Hermitian `H` -/

/-- For Hermitian `A`, `(A·x)† · (B·x) = x† · (A·B·x)`. -/
lemma star_mulVec_dotProduct {n : ℕ} {A B : Mat n} (hA : Aᴴ = A) (x : Fin n → ℂ) :
    star (A *ᵥ x) ⬝ᵥ (B *ᵥ x) = star x ⬝ᵥ ((A * B) *ᵥ x) := by
  rw [Matrix.star_mulVec, hA, Matrix.dotProduct_mulVec, Matrix.vecMul_vecMul,
    Matrix.dotProduct_mulVec]

/-- Even-index doubling identity: `2·(T_k x)†·(T_k x) − mu_0 = mu_(2k)`. -/
lemma direct_even {n : ℕ} {H : Mat n} (hH : Hᴴ = H) (x : Fin n → ℂ) (k : ℕ) :
    2 * (star (chebMatrix H k *ᵥ x) ⬝ᵥ (chebMatrix H k *ᵥ x)) - directMoment H x 0 =
      directMoment H x (2 * k) := by
  have h1 := star_mulVec_dotProduct (A := chebMatrix H k) (B := chebMatrix H k)
    (chebMatrix_conjTranspose H hH k) x
  have h2 := chebMatrix_mul_identity H (le_refl k)
  have h3 : star x ⬝ᵥ (((2 : ℂ) • (chebMatrix H k * chebMatrix H k)) *ᵥ x) =
      2 * (star x ⬝ᵥ ((chebMatrix H k * chebMatrix H k) *ᵥ x)) := by
    rw [Matrix.smul_mulVec_assoc, Matrix.dotProduct_smul, smul_eq_mul]
  rw [h1, ← h3, h2, Matrix.add_mulVec, Matrix.dotProduct_add]
  have hkk : k + k = 2 * k := by ring
  have hk0 : k - k = 0 := Nat.sub_self k
  rw [hkk, hk0]
  unfold directMoment
  ring

/-- Odd-index doubling identity: `2·(T_(k+1) x)†·(T_k x) − mu_1 = mu_(2k+1)`. -/
lemma direct_odd {n : ℕ} {H : Mat n} (hH : Hᴴ = H) (x : Fin n → ℂ) (k : ℕ) :
    2 * (star (chebMatrix H (k + 1) *ᵥ x) ⬝ᵥ (chebMatrix H k *ᵥ x)) - directMoment H x 1 =
      directMoment H x (2 * k + 1) := by
  have h1 := star_mulVec_dotProduct (A := chebMatrix H (k + 1)) (B := chebMatrix H k)
    (chebMatrix_conjTranspose H hH (k + 1)) x
  have h2 := chebMatrix_mul_identity H (Nat.le_succ k)
  have h3 : star x ⬝ᵥ (((2 : ℂ) • (chebMatrix H (k + 1) * chebMatrix H k)) *ᵥ x) =
      2 * (star x ⬝ᵥ ((chebMatrix H (k + 1) * chebMatrix H k) *ᵥ x)) := by
    rw [Matrix.smul_mulVec_assoc, Matrix.dotProduct_smul, smul_eq_mul]
  rw [h1, ← h3, h2, Matrix.add_mulVec, Matrix.dotProduct_add]
  have hkk : k + 1 + k = 2 * k + 1 := by ring
  have hk1 : k + 1 - k = 1 := by omega
  rw [hkk, hk1]
  unfold directMoment
  ring

/-! ## The loop invariant of `get_moments` -/

/-- Invariant of the doubling loop: after `j` iterations the iterate vectors are
`T_j(H)·x` and `T_(j+1)(H)·x`, and the moment buffer holds the direct Chebyshev
moments at all indices `< 2j+2` and its zero initialization elsewhere. -/
lemma loopIter_spec {n : ℕ} {H : Mat n} (hH : Hᴴ = H) (x : Fin n → ℂ) :
    ∀ j : ℕ,
      (loopIter H x j).a0 = chebMatrix H j *ᵥ x ∧
      (loopIter H x j).a1 = chebMatrix H (j + 1) *ᵥ x ∧
      ∀ k : ℕ, (loopIter H x j).mu k =
        if k < 2 * j + 2 then directMoment H x k else 0 := by
  intro j
  induction j with
  | zero =>
    refine ⟨?_, ?_, ?_⟩
    · rw [chebMatrix_zero, Matrix.one_mulVec]; rfl
    · rw [chebMatrix_one]; rfl
    · intro k
      have hmu0 : (loopIter H x 0).mu = Function.update (Function.update
          (fun _ => (0 : ℂ)) 0 (star x ⬝ᵥ x)) 1 (star x ⬝ᵥ (H *ᵥ x)) := rfl
      rw [hmu0]
      rcases Nat.lt_or_ge k 2 with hk | hk
      · interval_cases k
        · rw [Function.update_noteq (by omega), Function.update_same]
          simp [directMoment, chebMatrix_zero, Matrix.one_mulVec]
        · rw [Function.update_same]
          simp [directMoment, chebMatrix_one]
      · rw [Function.update_noteq (by omega), Function.update_noteq (by omega),
          if_neg (by omega)]
  | succ j ih =>
    obtain ⟨ha0, ha1, hmu⟩ := ih
    have halpha2 : (2 : ℂ) • (H *ᵥ (loopIter H x j).a1) - (loopIter H x j).a0 =
        chebMatrix H (j + 2) *ᵥ x := by
      rw [ha0, ha1, chebMatrix_add_two, Matrix.sub_mulVec, Matrix.smul_mulVec_assoc,
        Matrix.mulVec_mulVec]
    refine ⟨?_, ?_, ?_⟩
    · show (loopIter H x j).a1 = _
      exact ha1
    · show (2 : ℂ) • (H *ᵥ (loopIter H x j).a1) - (loopIter H x j).a0 = _
      exact halpha2
    · intro k
      show (Function.update (Function.update (loopIter H x j).mu (2 * (j + 1))
          (2 * (star (loopIter H x j).a1 ⬝ᵥ (loopIter H x j).a1) - (loopIter H x j).mu 0))
          (2 * (j + 1) + 1)
          (2 * (star ((2 : ℂ) • (H *ᵥ (loopIter H x j).a1) - (loopIter H x j).a0) ⬝ᵥ
            (loopIter H x j).a1) -
            (Function.update (loopIter H x j).mu (2 * (j + 1))
              (2 * (star (loopIter H x j).a1 ⬝ᵥ (loopIter H x j).a1) -
                (loopIter H x j).mu 0)) 1)) k = _
      rcases eq_or_ne k (2 * (j + 1) + 1) with hk | hk
      · subst hk
        rw [Function.update_same, Function.update_noteq (by omega), if_pos (by omega)]
        rw [halpha2, ha1, hmu 1, if_pos (by omega)]
        have := direct_odd hH x (j + 1)
        rw [show 2 * (j + 1) + 1 = 2 * (j + 1) + 1 from rfl] at this ⊢
        exact this
      · rw [Function.update_noteq hk]
        rcases eq_or_ne k (2 * (j + 1)) with hk2 | hk2
        · subst hk2
          rw [Function.update_same, if_pos (by omega), ha1, hmu 0, if_pos (by omega)]
          exact direct_even hH x (j + 1)
        · rw [Function.update_noteq hk2, hmu k]
          have : k < 2 * j + 2 ↔ k < 2 * (j + 1) + 2 := by omega
          by_cases hlt : k < 2 * j + 2
          · rw [if_pos hlt, if_pos (by omega)]
          · rw [if_neg hlt, if_neg (by omega)]

/-- Unfolding equation for the moment buffer after one more loop iteration. -/
lemma loopIter_succ_mu {n : ℕ} (H : Mat n) (x : Fin n → ℂ) (j : ℕ) :
    (loopIter H x (j + 1)).mu =
      Function.update
        (Function.update (loopIter H x j).mu (2 * (j + 1))
          (2 * (star (loopIter H x j).a1 ⬝ᵥ (loopIter H x j).a1) - (loopIter H x j).mu 0))
        (2 * (j + 1) + 1)
        (2 * (star ((2 : ℂ) • (H *ᵥ (loopIter H x j).a1) - (loopIter H x j).a0) ⬝ᵥ
            (loopIter H x j).a1) -
          Function.update (loopIter H x j).mu (2 * (j + 1))
            (2 * (star (loopIter H x j).a1 ⬝ᵥ (loopIter H x j).a1) -
              (loopIter H x j).mu 0) 1) := rfl

/-- The loop never writes the moment buffer at an index `≥ 2j+2`: those entries
keep their zero initialization. Holds for arbitrary (not necessarily
Hermitian) `H`. -/
lemma loopIter_mu_high {n : ℕ} (H : Mat n) (x : Fin n → ℂ) :
    ∀ j k : ℕ, 2 * j + 2 ≤ k → (loopIter H x j).mu k = 0 := by
  intro j
  induction j with
  | zero =>
    intro k hk
    have hmu0 : (loopIter H x 0).mu = Function.update (Function.update
        (fun _ => (0 : ℂ)) 0 (star x ⬝ᵥ x)) 1 (star x ⬝ᵥ (H *ᵥ x)) := rfl
    rw [hmu0, Function.update_noteq (by omega), Function.update_noteq (by omega)]
  | succ j ih =>
    intro k hk
    rw [loopIter_succ_mu, Function.update_noteq (by omega),
      Function.update_noteq (by omega)]
    exact ih k (by omega)

/-- The loop never overwrites the moment buffer at indices `0` and `1`. -/
lemma loopIter_mu_lowIdx {n : ℕ} (H : Mat n) (x : Fin n → ℂ) :
    ∀ j : ℕ, (loopIter H x j).mu 0 = star x ⬝ᵥ x ∧
      (loopIter H x j).mu 1 = star x ⬝ᵥ (H *ᵥ x) := by
  intro j
  induction j with
  | zero =>
    have hmu0 : (loopIter H x 0).mu = Function.update (Function.update
        (fun _ => (0 : ℂ)) 0 (star x ⬝ᵥ x)) 1 (star x ⬝ᵥ (H *ᵥ x)) := rfl
    rw [hmu0]
    constructor
    · rw [Function.update_noteq (by omega), Function.update_same]
    · rw [Function.update_same]
  | succ j ih =>
    rw [loopIter_succ_mu]
    constructor
    · rw [Function.update_noteq (by omega), Function.update_noteq (by omega)]
      exact ih.1
    · rw [Function.update_noteq (by omega), Function.update_noteq (by omega)]
      exact ih.2

/-- For odd `num_moments ≥ 3` the final moment slot is never written and stays
zero (the loop writes only up to index `num_moments - 2`). -/
lemma get_moments_odd_last_zero {n : ℕ} (H : Mat n) (x : Fin n → ℂ) (M : ℕ)
    (hodd : Odd M) (h3 : 3 ≤ M) : get_moments H M x (M - 1) = 0 := by
  obtain ⟨r, hr⟩ := hodd
  subst hr
  unfold get_moments
  have h2 : (2 * r + 1) / 2 - 1 = r - 1 := by omega
  rw [h2]
  exact loopIter_mu_high H x (r - 1) (2 * r + 1 - 1) (by omega)

/-- The two base moments of `get_moments`, for any `num_moments`. -/
lemma get_moments_lowIdx {n : ℕ} (H : Mat n) (x : Fin n → ℂ) (M : ℕ) :
    get_moments H M x 0 = star x ⬝ᵥ x ∧
      get_moments H M x 1 = star x ⬝ᵥ (H *ᵥ x) :=
  loopIter_mu_lowIdx H x (M / 2 - 1)

/-- For Hermitian `H`, the quadratic form `x† H x` is its own conjugate. -/
lemma star_dotProduct_self {n : ℕ} {H : Mat n} (hH : Hᴴ = H) (x : Fin n → ℂ) :
    star (star x ⬝ᵥ (H *ᵥ x)) = star x ⬝ᵥ (H *ᵥ x) := by
  calc star (star x ⬝ᵥ (H *ᵥ x))
      = star (H *ᵥ x) ⬝ᵥ star (star x) := (Matrix.star_dotProduct_star _ _).symm
    _ = (star x ᵥ* Hᴴ) ⬝ᵥ x := by rw [Matrix.star_mulVec, star_star]
    _ = (star x ᵥ* H) ⬝ᵥ x := by rw [hH]
    _ = star x ⬝ᵥ (H *ᵥ x) := (Matrix.dotProduct_mulVec _ _ _).symm

/-! ## Claim theorems -/

/-- C1: for every Hermitian rescaled matrix `H`, every probe vector `x` and
every even `num_moments ≥ 2`, the moment sequence produced by the doubling
recursion of `get_moments` equals the sequence of direct Chebyshev evaluations
`conj(x)·T_k(H)·x` for `k = 0..num_moments-1` (exactly, in the exact-arithmetic
embedding, hence in particular within any floating-point tolerance). -/
theorem c1_get_moments_refines_direct_chebyshev {n : ℕ} (H : Mat n)
    (x : Fin n → ℂ) (M : ℕ) (hH : Hᴴ = H) (heven : Even M) (h2 : 2 ≤ M) :
    ∀ k < M, get_moments H M x k = directMoment H x k := by
  intro k hk
  obtain ⟨m, hm⟩ := heven
  unfold get_moments
  have hdiv : M / 2 - 1 = m - 1 := by omega
  rw [hdiv, (loopIter_spec hH x (m - 1)).2.2 k, if_pos (by omega)]

/-- Witness for C1 at `H = 0`, `x = (1)`, `num_moments = 4`, all indices. -/
theorem c1_witness :
    ((0 : Mat 1)ᴴ = 0 ∧ Even 4 ∧ 2 ≤ 4) ∧
      ∀ k < 4, get_moments (0 : Mat 1) 4 (fun _ => 1) k =
        directMoment (0 : Mat 1) (fun _ => 1) k :=
  ⟨⟨by simp, by decide, by decide⟩,
    c1_get_moments_refines_direct_chebyshev (0 : Mat 1) (fun _ => 1) 4
      (by simp) (by decide) (by decide)⟩

/-- C2: `apply_kernel` computes exactly the reconstruction described by the
spec: probe/dimension averaging of the real parts, optional elementwise kernel
damping, zero-padding to `num_points = num_moments + extra_points`, DCT-III,
abscissas `ek[j] = cos(π(j+0.5)/num_points)` and density
`rho[j] = smooth_moments[j]/(π·sqrt(1 - ek[j]²))`. -/
theorem c2_apply_kernel_functional_spec {num_vecs : ℕ}
    (moments : Fin num_vecs → ℕ → ℂ) (kernel : Option (ℕ → ℝ))
    (dimension num_moments extra_points : ℕ) :
    apply_kernel moments kernel dimension num_moments extra_points =
      apply_kernel_claim moments kernel dimension num_moments extra_points := by
  unfold apply_kernel apply_kernel_claim gkWeight ekPoint
  rw [Nat.add_comm extra_points num_moments]

/-- C3: `rescale_kpm` returns exactly `(ek·a + b, rho/a)`, and composing it
with the forward affine rescale `(ek - b)/a` recovers `ek` exactly when
`a ≠ 0`. -/
theorem c3_rescale_kpm_contract {ι : Type*} (ek rho : ι → ℝ) (a b : ℝ)
    (ha : a ≠ 0) :
    (rescale_kpm ek rho a b).1 = (fun i => ek i * a + b) ∧
    (rescale_kpm ek rho a b).2 = (fun i => rho i / a) ∧
    (rescale_kpm (rescale_abscissas ek a b) rho a b).1 = ek := by
  refine ⟨rfl, rfl, ?_⟩
  funext i
  show (ek i - b) / a * a + b = ek i
  rw [div_mul_cancel₀ _ ha]
  ring

/-- Witness for C3 at `ek = (5)`, `rho = (7)`, `a = 2`, `b = 3`. -/
theorem c3_witness :
    (2 : ℝ) ≠ 0 ∧
      ((rescale_kpm (fun _ : Fin 1 => (5 : ℝ)) (fun _ => 7) 2 3).1 =
          (fun i => (fun _ : Fin 1 => (5 : ℝ)) i * 2 + 3) ∧
        (rescale_kpm (fun _ : Fin 1 => (5 : ℝ)) (fun _ => 7) 2 3).2 =
          (fun i => (fun _ : Fin 1 => (7 : ℝ)) i / 2) ∧
        (rescale_kpm (rescale_abscissas (fun _ : Fin 1 => (5 : ℝ)) 2 3)
            (fun _ => 7) 2 3).1 = (fun _ : Fin 1 => (5 : ℝ))) :=
  ⟨by norm_num,
    c3_rescale_kpm_contract (fun _ : Fin 1 => (5 : ℝ)) (fun _ => 7) 2 3 (by norm_num)⟩

/-- C4 counterexample: with the odd value `num_moments = 5` (at `H = 0`,
`x = (1)`) the moment engine does not fail at all: it silently returns a
result whose entry `0` is the probe norm `1` and whose final entry `4` kept its
zero fill — there is no `InvalidParameter` check anywhere in the code. -/
theorem c4_no_invalid_parameter_counterexample :
    get_moments (0 : Mat 1) 5 (fun _ => 1) 0 = 1 ∧
      get_moments (0 : Mat 1) 5 (fun _ => 1) 4 = 0 := by
  constructor
  · rw [(get_moments_lowIdx (0 : Mat 1) (fun _ => 1) 5).1]
    simp [Matrix.dotProduct]
  · exact get_moments_odd_last_zero (0 : Mat 1) (fun _ => 1) 5 (by decide) (by decide)

/-- C4 amended: no `InvalidParameter` validation exists; with odd
`num_moments = 5` the moment computation silently produces a result: entry `0`
is the usual probe moment and the final entry retains its zero initialization
(the loop writes indices at most `num_moments - 2`). -/
theorem c4_amended_odd_silently_zero_fills {n : ℕ} (H : Mat n) (x : Fin n → ℂ) :
    get_moments H 5 x 0 = star x ⬝ᵥ x ∧ get_moments H 5 x 4 = 0 :=
  ⟨(get_moments_lowIdx H x 5).1,
    get_moments_odd_last_zero H x 5 (by decide) (by decide)⟩

/-- C5 counterexample: concrete run (degenerate bounds `lmin = lmax = 10`,
`epsilon = 0`, so `scale_a = 0`, `scale_b = 10`) on which the first component
returned by `cupykpm` is the density value `0` while the abscissa array —
which the claim says comes first — has value `10`: the `cupykpm` return order
is not `(eigenvalues, density)`. -/
theorem c5_return_order_counterexample :
    (cupykpm (0 : Mat 1) 2 1 0 32 (some 10) (some 10) 0 (fun _ => (0, 0))
        (fun _ _ => 1) (fun _ _ _ => 1)).1 0 = 0 ∧
      (kpm_pipeline (0 : Mat 1) 2 1 0 (some 10) (some 10) 0 (fun _ => (0, 0))
        (fun _ _ => 1) (fun _ _ _ => 1)).1 0 = 10 ∧
      (cupykpm (0 : Mat 1) 2 1 0 32 (some 10) (some 10) 0 (fun _ => (0, 0))
          (fun _ _ => 1) (fun _ _ _ => 1)).1 0 ≠
        (kpm_pipeline (0 : Mat 1) 2 1 0 (some 10) (some 10) 0 (fun _ => (0, 0))
          (fun _ _ => 1) (fun _ _ _ => 1)).1 0 := by
  refine ⟨?_, ?_, ?_⟩
  · show (fun j => (apply_kernel (fun v => get_moments
        (rescale_matrix (0 : Mat 1) 10 10 0).1 2 (fun _ => 1)) (some (fun _ => 1))
        1 2 0).2 j / ((10 - 10) / (2 - 0) : ℝ)) 0 = 0
    norm_num
  · show (fun j => (apply_kernel (fun v => get_moments
        (rescale_matrix (0 : Mat 1) 10 10 0).1 2 (fun _ => 1)) (some (fun _ => 1))
        1 2 0).1 j * ((10 - 10) / (2 - 0) : ℝ) + (10 + 10) / 2) 0 = 10
    norm_num
  · intro hcontra
    have h1 : (cupykpm (0 : Mat 1) 2 1 0 32 (some 10) (some 10) 0 (fun _ => (0, 0))
        (fun _ _ => 1) (fun _ _ _ => 1)).1 0 = 0 := by
      show (fun j => (apply_kernel (fun v => get_moments
          (rescale_matrix (0 : Mat 1) 10 10 0).1 2 (fun _ => 1)) (some (fun _ => 1))
          1 2 0).2 j / ((10 - 10) / (2 - 0) : ℝ)) 0 = 0
      norm_num
    have h2 : (kpm_pipeline (0 : Mat 1) 2 1 0 (some 10) (some 10) 0 (fun _ => (0, 0))
        (fun _ _ => 1) (fun _ _ _ => 1)).1 0 = 10 := by
      show (fun j => (apply_kernel (fun v => get_moments
          (rescale_matrix (0 : Mat 1) 10 10 0).1 2 (fun _ => 1)) (some (fun _ => 1))
          1 2 0).1 j * ((10 - 10) / (2 - 0) : ℝ) + (10 + 10) / 2) 0 = 10
      norm_num
    rw [h1, h2] at hcontra
    norm_num at hcontra

/-- C5 amended: `pykpm` returns its pair in the order `(eigenvalues, density)`
(it is exactly the common pipeline), while `cupykpm` returns the swapped pair
`(density, eigenvalues)`. -/
theorem c5_amended_return_orders {n : ℕ} (H : Mat n)
    (num_moments num_vecs extra_points precision : ℕ) (lmin lmax : Option ℝ)
    (epsilon : ℝ) (boundsOf : Mat n → ℝ × ℝ) (misc_default_epsilon : ℝ)
    (probes : Fin num_vecs → Fin n → ℂ) (kernelGen : ℕ → ℕ → ℕ → ℝ) :
    pykpm H num_moments num_vecs extra_points precision lmin lmax epsilon
        boundsOf misc_default_epsilon probes kernelGen =
      kpm_pipeline H num_moments num_vecs extra_points lmin lmax
        misc_default_epsilon boundsOf probes kernelGen ∧
    cupykpm H num_moments num_vecs extra_points precision lmin lmax epsilon
        boundsOf probes kernelGen =
      Prod.swap (kpm_pipeline H num_moments num_vecs extra_points lmin lmax
        epsilon boundsOf probes kernelGen) :=
  ⟨rfl, rfl⟩

/-- C6: for `num_moments = 2`, any probe `x` and Hermitian `H`, moment `0`
equals the squared norm of the probe and moment `1` equals
`Re(conj(x)·H·x)` (no doubling iteration is executed). -/
theorem c6_base_case_moments {n : ℕ} (H : Mat n) (x : Fin n → ℂ)
    (hH : Hᴴ = H) :
    get_moments H 2 x 0 = ((∑ i, Complex.normSq (x i) : ℝ) : ℂ) ∧
      get_moments H 2 x 1 = (((star x ⬝ᵥ (H *ᵥ x)).re : ℝ) : ℂ) := by
  constructor
  · rw [(get_moments_lowIdx H x 2).1]
    unfold Matrix.dotProduct
    push_cast
    refine Finset.sum_congr rfl fun i _ => ?_
    rw [Pi.star_apply, Complex.star_def, Complex.normSq_eq_conj_mul_self]
  · rw [(get_moments_lowIdx H x 2).2]
    have hsz := star_dotProduct_self hH x
    have hconj : (starRingEnd ℂ) (star x ⬝ᵥ (H *ᵥ x)) = star x ⬝ᵥ (H *ᵥ x) := by
      rw [← Complex.star_def]
      exact hsz
    exact (Complex.conj_eq_iff_re.mp hconj).symm

/-- Witness for C6 at `H = 0`, `x = (1)`. -/
theorem c6_witness :
    (0 : Mat 1)ᴴ = 0 ∧
      (get_moments (0 : Mat 1) 2 (fun _ => 1) 0 =
          ((∑ i : Fin 1, Complex.normSq ((fun _ : Fin 1 => (1 : ℂ)) i) : ℝ) : ℂ) ∧
        get_moments (0 : Mat 1) 2 (fun _ => 1) 1 =
          (((star (fun _ : Fin 1 => (1 : ℂ)) ⬝ᵥ
            ((0 : Mat 1) *ᵥ fun _ => 1)).re : ℝ) : ℂ)) :=
  ⟨by simp, c6_base_case_moments (0 : Mat 1) (fun _ => 1) (by simp)⟩

/-- C7: for every `num_points ≥ 1` and `j < num_points` the abscissa
`ek[j] = cos(π(j+0.5)/num_points)` lies strictly inside `(-1, 1)`, hence the
weight `gk[j] = π·sqrt(1-ek[j]²)` is strictly positive and the division
`rho[j] = smooth[j]/gk[j]` never divides by zero. -/
theorem c7_nodes_strictly_interior (N j : ℕ) (hN : 1 ≤ N) (hj : j < N) :
    (-1 < ekPoint N j ∧ ekPoint N j < 1) ∧
      0 < gkWeight N j ∧ gkWeight N j ≠ 0 := by
  have hNpos : (0 : ℝ) < N := by exact_mod_cast hN
  have hθpos : 0 < Real.pi * ((j : ℝ) + 0.5) / N := by positivity
  have hjN : (j : ℝ) + 1 ≤ N := by exact_mod_cast hj
  have hθlt : Real.pi * ((j : ℝ) + 0.5) / N < Real.pi := by
    rw [div_lt_iff₀ hNpos]
    have h1 : (j : ℝ) + 0.5 < N := by linarith
    calc Real.pi * ((j : ℝ) + 0.5) < Real.pi * N := by
          exact mul_lt_mul_of_pos_left h1 Real.pi_pos
      _ = Real.pi * N := rfl
  have hmem0 : (0 : ℝ) ∈ Set.Icc 0 Real.pi := ⟨le_refl 0, Real.pi_pos.le⟩
  have hmemθ : Real.pi * ((j : ℝ) + 0.5) / N ∈ Set.Icc 0 Real.pi :=
    ⟨hθpos.le, hθlt.le⟩
  have hmemπ : Real.pi ∈ Set.Icc 0 Real.pi := ⟨Real.pi_pos.le, le_refl _⟩
  have hlt1 : ekPoint N j < 1 := by
    have := Real.strictAntiOn_cos hmem0 hmemθ hθpos
    rwa [Real.cos_zero] at this
  have hgt : -1 < ekPoint N j := by
    have := Real.strictAntiOn_cos hmemθ hmemπ hθlt
    rwa [Real.cos_pi] at this
  have hsq : ekPoint N j ^ 2 < 1 := by
    rw [sq_lt_one_iff_abs_lt_one]
    exact abs_lt.mpr ⟨hgt, hlt1⟩
  have hgk : 0 < gkWeight N j := by
    unfold gkWeight
    exact mul_pos Real.pi_pos (Real.sqrt_pos.mpr (by linarith))
  exact ⟨⟨hgt, hlt1⟩, hgk, ne_of_gt hgk⟩

/-- Witness for C7 at `num_points = 1`, `j = 0`. -/
theorem c7_witness :
    (1 ≤ 1 ∧ 0 < 1) ∧
      ((-1 < ekPoint 1 0 ∧ ekPoint 1 0 < 1) ∧
        0 < gkWeight 1 0 ∧ gkWeight 1 0 ≠ 0) :=
  ⟨⟨by decide, by decide⟩, c7_nodes_strictly_interior 1 0 (by decide) (by decide)⟩

/-- C8: the `epsilon` parameter of `pykpm` has no effect on the returned
`(ek, rho)`: two calls identical except in `epsilon` compute the same result,
because `pykpm` never passes its `epsilon` to the rescaler. -/
theorem c8_pykpm_epsilon_irrelevant {n : ℕ} (H : Mat n)
    (num_moments num_vecs extra_points precision : ℕ) (lmin lmax : Option ℝ)
    (epsilon1 epsilon2 : ℝ) (boundsOf : Mat n → ℝ × ℝ)
    (misc_default_epsilon : ℝ) (probes : Fin num_vecs → Fin n → ℂ)
    (kernelGen : ℕ → ℕ → ℕ → ℝ) :
    pykpm H num_moments num_vecs extra_points precision lmin lmax epsilon1
        boundsOf misc_default_epsilon probes kernelGen =
      pykpm H num_moments num_vecs extra_points precision lmin lmax epsilon2
        boundsOf misc_default_epsilon probes kernelGen := rfl

/-- C9: the `precision` parameter of `cupykpm` has no effect on the returned
`(rho, ek)`: the kernel is always requested at precision `32` (and the matrix
data is always cast to `complex64`), so two calls identical except in
`precision` compute the same result. -/
theorem c9_cupykpm_precision_irrelevant {n : ℕ} (H : Mat n)
    (num_moments num_vecs extra_points precision1 precision2 : ℕ)
    (lmin lmax : Option ℝ) (epsilon : ℝ) (boundsOf : Mat n → ℝ × ℝ)
    (probes : Fin num_vecs → Fin n → ℂ) (kernelGen : ℕ → ℕ → ℕ → ℝ) :
    cupykpm H num_moments num_vecs extra_points precision1 lmin lmax epsilon
        boundsOf probes kernelGen =
      cupykpm H num_moments num_vecs extra_points precision2 lmin lmax epsilon
        boundsOf probes kernelGen := rfl

/-- C10: when `num_moments` is odd and `≥ 3`, the last entry
`mu[num_moments-1]` of the sequence returned by `get_moments` is always zero:
the loop writes indices `2i` and `2i+1` only for `i = 1..num_moments/2 - 1`,
reaching at most index `num_moments - 2`. -/
theorem c10_odd_last_moment_zero {n : ℕ} (H : Mat n) (x : Fin n → ℂ) (M : ℕ)
    (hodd : Odd M) (h3 : 3 ≤ M) : get_moments H M x (M - 1) = 0 :=
  get_moments_odd_last_zero H x M hodd h3

/-- Witness for C10 at `H = 0`, `x = (1)`, `num_moments = 3`. -/
theorem c10_witness :
    (Odd 3 ∧ 3 ≤ 3) ∧ get_moments (0 : Mat 1) 3 (fun _ => 1) (3 - 1) = 0 :=
  ⟨⟨by decide, by decide⟩,
    c10_odd_last_moment_zero (0 : Mat 1) (fun _ => 1) 3 (by decide) (by decide)⟩

end Emate

end
